import Mathlib

/-!
# Verification of the chess-search engine (C sources: board.c, minimax.c, main.c)

A single token walks a rectangular grid; each move goes to an unvisited cell
reachable by the movement rule of the chosen piece; a player with no move
loses.  The C program decides the winner by exhaustive minimax with an
in-place make/undo discipline, an optional symmetry-based move filter and an
optional center-distance ordering heuristic.

This file is a shallow embedding of that program:
* machine ints are modelled as `Int` (the C code never overflows on the
  boards considered, and all comparisons are genuine integer comparisons);
* the visited bitmap `unsigned char *board` indexed by `row * cols + col`
  is modelled as a function `Int → Bool` with the same indexing;
* the unbounded `while` loop of `check_positions_in_directions` is modelled
  with explicit fuel `rayFuel` (rows + cols + 2 steps always reach the edge
  for the unit direction vectors of the sliding pieces);
* the recursive `minimax` is modelled with explicit fuel; the wrapper
  `minimax` supplies fuel `unvisitedCount b + 1`, which is proved sufficient
  (fuel beyond it never changes the result);
* `malloc`/`calloc` failure is not modelled: allocation always succeeds.
-/

/-- `PieceType` from board.h. -/
inductive PieceType where
  | rook
  | king
  | queen
  | knight
deriving DecidableEq

/-- `Position` from board.h: a (row, col) pair of C ints. -/
structure Position where
  row : Int
  col : Int
deriving DecidableEq

/-- `Board` from board.h.  The C field `unsigned char *board` (the visited
bitmap, indexed by `row * cols + col`) is the function `vis`; `center_row`
and `center_col` (`rows / 2.0`, `cols / 2.0`, used only by the ordering
heuristic) are recomputed from `rows` and `cols` where needed, with all
distances doubled so that the arithmetic stays in `Int` (exact, since every
quantity involved is a half-integer). -/
structure Board where
  rows : Int
  cols : Int
  vis : Int → Bool
  pos : Position
  piece_type : PieceType

/-- `board_get` from board.h: `board->board[row * board->cols + col]`. -/
def board_get (b : Board) (row col : Int) : Bool :=
  b.vis (row * b.cols + col)

/-- `board_set` from board.h: `board->board[row * board->cols + col] = value`. -/
def board_set (b : Board) (row col : Int) (value : Bool) : Board :=
  { b with vis := fun i => if i = row * b.cols + col then value else b.vis i }

/-- The board built by a successful `board_create` (board.c): all cells
unvisited, then the initial position marked visited. -/
def mkBoard (rows cols : Int) (initial_pos : Position) (piece_type : PieceType) : Board :=
  board_set
    { rows := rows, cols := cols, vis := fun _ => false,
      pos := initial_pos, piece_type := piece_type }
    initial_pos.row initial_pos.col true

/-- `board_create` from board.c.  The C function can fail only because
`malloc`/`calloc` fails; allocation is not modelled, so the embedded
function always succeeds.  Note that the C code performs no check on
`rows`/`cols`: the returned board is built unconditionally. -/
def board_create (rows cols : Int) (initial_pos : Position) (piece_type : PieceType) :
    Option Board :=
  some (mkBoard rows cols initial_pos piece_type)

/-- `board_make_move` from board.c: record the old position, move the token,
mark the destination visited.  The C function mutates the board and returns
the old position; here it returns the pair (old position, new board). -/
def board_make_move (b : Board) (position : Position) : Position × Board :=
  (b.pos, board_set { b with pos := position } position.row position.col true)

/-- `board_undo_move` from board.c: clear the visited flag on `unmark_pos`
and restore the token to `restore_pos`. -/
def board_undo_move (b : Board) (unmark_pos restore_pos : Position) : Board :=
  { board_set b unmark_pos.row unmark_pos.col false with pos := restore_pos }

/-- `ROOK_DIRS` from board.c. -/
def ROOK_DIRS : List (Int × Int) := [(1, 0), (-1, 0), (0, 1), (0, -1)]

/-- `KING_DIRS` from board.c. -/
def KING_DIRS : List (Int × Int) :=
  [(1, 0), (-1, 0), (0, 1), (0, -1), (1, 1), (1, -1), (-1, 1), (-1, -1)]

/-- `QUEEN_DIRS` from board.c. -/
def QUEEN_DIRS : List (Int × Int) :=
  [(1, 0), (-1, 0), (0, 1), (0, -1), (1, 1), (1, -1), (-1, 1), (-1, -1)]

/-- `KNIGHT_DIRS` from board.c. -/
def KNIGHT_DIRS : List (Int × Int) :=
  [(2, 1), (2, -1), (-2, 1), (-2, -1), (1, 2), (1, -2), (-1, 2), (-1, -2)]

/-- In-bounds test, the guard of the `while` loop in
`check_positions_in_directions`. -/
def inBounds (b : Board) (row col : Int) : Prop :=
  0 ≤ row ∧ row < b.rows ∧ 0 ≤ col ∧ col < b.cols

instance (b : Board) (row col : Int) : Decidable (inBounds b row col) := by
  unfold inBounds; infer_instance

/-- Fuel for one ray walk: every sliding direction has unit components, so
after `rows + cols` in-bounds steps the walk has necessarily left the board. -/
def rayFuel (b : Board) : Nat :=
  b.rows.toNat + b.cols.toNat + 2

/-- The `while` loop body of `check_positions_in_directions` (board.c) for a
single direction `(dr, dc)`, starting at cell `(r, c)` with `count` already
accumulated: an in-bounds unvisited cell is appended while `count <
max_positions`; the walk steps on regardless (only `!is_unlimited` or going
out of bounds stops it). -/
def rayWalk (b : Board) (dr dc : Int) (is_unlimited : Bool) (max_positions : Int) :
    Nat → Int → Int → Nat → List Position
  | 0, _, _, _ => []
  | fuel + 1, r, c, count =>
    if inBounds b r c then
      if board_get b r c = false ∧ (count : Int) < max_positions then
        Position.mk r c ::
          (if is_unlimited then rayWalk b dr dc is_unlimited max_positions fuel (r + dr) (c + dc) (count + 1)
           else [])
      else
        (if is_unlimited then rayWalk b dr dc is_unlimited max_positions fuel (r + dr) (c + dc) count
         else [])
    else []

/-- The outer `for` loop of `check_positions_in_directions`: walk each
direction in turn, threading the shared `count` through. -/
def dirsWalk (b : Board) (is_unlimited : Bool) (max_positions : Int) :
    List (Int × Int) → Nat → List Position
  | [], _ => []
  | d :: rest, count =>
    let l := rayWalk b d.1 d.2 is_unlimited max_positions (rayFuel b)
      (b.pos.row + d.1) (b.pos.col + d.2) count
    l ++ dirsWalk b is_unlimited max_positions rest (count + l.length)

/-- `check_positions_in_directions` from board.c. -/
def check_positions_in_directions (b : Board) (dirs : List (Int × Int))
    (is_unlimited : Bool) (max_positions : Int) : List Position :=
  dirsWalk b is_unlimited max_positions dirs 0

/-- `board_get_available_positions` from board.c. -/
def board_get_available_positions (b : Board) (max_positions : Int) : List Position :=
  match b.piece_type with
  | .rook => check_positions_in_directions b ROOK_DIRS true max_positions
  | .king => check_positions_in_directions b KING_DIRS false max_positions
  | .queen => check_positions_in_directions b QUEEN_DIRS true max_positions
  | .knight => check_positions_in_directions b KNIGHT_DIRS false max_positions

/-- `MAX_POSITIONS` from minimax.c. -/
def MAX_POSITIONS : Int := 256

/-- `MAX_DEPTH_FOR_SYMMETRY` from minimax.c. -/
def MAX_DEPTH_FOR_SYMMETRY : Int := 3

/-- `check_horizontal_symmetry` from minimax.c: the current column sits on
the vertical mirror axis and the visited bitmap is invariant under the
horizontal mirror.  The C `for` loops over `r < rows`, `c < half_cols` with
`half_cols = (cols + 1) / 2` (C integer division truncates toward zero). -/
def check_horizontal_symmetry (b : Board) : Bool :=
  if b.pos.col * 2 ≠ b.cols - 1 then false
  else
    (List.range b.rows.toNat).all fun r =>
      (List.range ((b.cols + 1).tdiv 2).toNat).all fun c =>
        board_get b r c == board_get b r (b.cols - 1 - c)

/-- `check_vertical_symmetry` from minimax.c. -/
def check_vertical_symmetry (b : Board) : Bool :=
  if b.pos.row * 2 ≠ b.rows - 1 then false
  else
    (List.range ((b.rows + 1).tdiv 2).toNat).all fun r =>
      (List.range b.cols.toNat).all fun c =>
        board_get b r c == board_get b (b.rows - 1 - r) c

/-- `get_canonical_position` from minimax.c: collect the mirror images
available under the detected symmetries and keep the row-major
lexicographically smallest. -/
def get_canonical_position (pos : Position) (rows cols : Int)
    (is_h_sym is_v_sym : Bool) : Position :=
  let candidates : List Position :=
    [pos]
    ++ (if is_h_sym then [⟨pos.row, cols - 1 - pos.col⟩] else [])
    ++ (if is_v_sym then [⟨rows - 1 - pos.row, pos.col⟩] else [])
    ++ (if is_h_sym && is_v_sym then [⟨rows - 1 - pos.row, cols - 1 - pos.col⟩] else [])
  candidates.foldl
    (fun canonical cand =>
      if cand.row < canonical.row ∨ (cand.row = canonical.row ∧ cand.col < canonical.col)
      then cand else canonical)
    pos

/-- The dedup loop of `filter_symmetric_moves`: the C `bool seen[512]` hash
table (all-false at entry) is modelled as the list of hash values seen so
far; `hash = (canonical.row * cols + canonical.col) % 512` with C `%`
(truncated remainder, `Int.tmod`). -/
def filterSymGo (b : Board) (is_h_sym is_v_sym : Bool) :
    List Position → List Int → List Position
  | [], _ => []
  | p :: rest, seen =>
    let canonical := get_canonical_position p b.rows b.cols is_h_sym is_v_sym
    let hash := (canonical.row * b.cols + canonical.col).tmod (MAX_POSITIONS * 2)
    if seen.contains hash then filterSymGo b is_h_sym is_v_sym rest seen
    else p :: filterSymGo b is_h_sym is_v_sym rest (hash :: seen)

/-- `filter_symmetric_moves` from minimax.c. -/
def filter_symmetric_moves (b : Board) (positions : List Position) : List Position :=
  let is_h_sym := check_horizontal_symmetry b
  let is_v_sym := check_vertical_symmetry b
  if !is_h_sym && !is_v_sym then positions
  else filterSymGo b is_h_sym is_v_sym positions []

/-- Twice the Manhattan distance of `p` from the board center used by
`compare_positions_heuristic` (minimax.c): the C code computes
`fabs(row - rows/2.0) + fabs(col - cols/2.0)` in `double`; every quantity is
a half-integer represented exactly, so comparisons agree with the integer
comparisons of the doubled distances `|2 row - rows| + |2 col - cols|`. -/
def dist2 (b : Board) (p : Position) : Int :=
  (2 * p.row - b.rows).natAbs + (2 * p.col - b.cols).natAbs

/-- `sort_moves_by_heuristic` from minimax.c: sort by descending distance
from the center (`qsort` with a comparator returning the sign of
`dist_b - dist_a`; the order of ties is left to the sort, modelled here as a
stable merge sort). -/
def sort_moves_by_heuristic (b : Board) (positions : List Position) : List Position :=
  positions.mergeSort fun p q => dist2 b q ≤ dist2 b p

/-- `MinimaxResult` from minimax.h (`node_count` is a C `long`). -/
structure MinimaxResult where
  winner : Bool
  node_count : Int
deriving DecidableEq

/-- Number of in-bounds unvisited cells: the measure that strictly decreases
at every ply (each move marks a previously unvisited in-bounds cell). -/
def unvisitedCount (b : Board) : Nat :=
  ((Finset.range b.rows.toNat ×ˢ Finset.range b.cols.toNat).filter
    (fun rc => board_get b rc.1 rc.2 = false)).card

/-- The `for` loop of `minimax` (minimax.c): try each candidate in order;
make the move, evaluate the child via `rec`, accumulate its node count, undo
the move; short-circuit as soon as a child reports the mover as winner.  The
recursive call is abstracted as `rec` (at the call site it is `minimax` at
the next depth with the opposite player and one unit less fuel). -/
def searchLoop (rec : Board → MinimaxResult) (b : Board) (player : Bool) :
    List Position → Int → MinimaxResult
  | [], acc => ⟨!player, acc⟩
  | m :: rest, acc =>
    let old_pos := (board_make_move b m).1
    let b1 := (board_make_move b m).2
    let child := rec b1
    let acc1 := acc + child.node_count
    let b2 := board_undo_move b1 m old_pos
    if child.winner = player then ⟨player, acc1⟩
    else searchLoop rec b2 player rest acc1

/-- `minimax` from minimax.c, fuel-indexed.  With fuel `f + 1` the body is a
direct transcription: generate candidates (empty ⇒ the mover loses with
node count 1), apply the symmetry filter when `symmetry && depth ≤ 3`, apply
the heuristic ordering when `heuristic`, then run the candidate loop with
node count starting at 1.  `verbose` only guards `printf` calls in the C
code, so it is threaded through but never read. -/
def minimaxFuel : Nat → Board → Int → Bool → Bool → Bool → Bool → MinimaxResult
  | 0, _, _, player, _, _, _ => ⟨!player, 1⟩
  | fuel + 1, b, depth, player, verbose, heuristic, symmetry =>
    let avail := board_get_available_positions b MAX_POSITIONS
    if avail.length = 0 then ⟨!player, 1⟩
    else
      let avail1 := if symmetry ∧ depth ≤ MAX_DEPTH_FOR_SYMMETRY
        then filter_symmetric_moves b avail else avail
      let avail2 := if heuristic then sort_moves_by_heuristic b avail1 else avail1
      searchLoop (fun b1 => minimaxFuel fuel b1 (depth + 1) (!player) verbose heuristic symmetry)
        b player avail2 1

/-- `minimax` from minimax.c: the fuel-indexed recursion run with fuel
`unvisitedCount b + 1`, which always suffices (every ply strictly decreases
`unvisitedCount`, proved below as fuel independence). -/
def minimax (b : Board) (depth : Int) (player verbose heuristic symmetry : Bool) :
    MinimaxResult :=
  minimaxFuel (unvisitedCount b + 1) b depth player verbose heuristic symmetry

/-- The dimension validation performed by `main` (main.c) before
`board_create` is called: `height <= 0 || width <= 0` is rejected, then an
out-of-bounds initial position is rejected. -/
def cliValidate (height width initial_row initial_col : Int) : Bool :=
  if height ≤ 0 ∨ width ≤ 0 then false
  else if initial_row < 0 ∨ initial_row ≥ height ∨ initial_col < 0 ∨ initial_col ≥ width
    then false
  else true

/-- The direction table selected by the `switch` in
`board_get_available_positions` (board.c). -/
def pieceDirs : PieceType → List (Int × Int)
  | .rook => ROOK_DIRS
  | .king => KING_DIRS
  | .queen => QUEEN_DIRS
  | .knight => KNIGHT_DIRS

/-- The `is_unlimited` flag selected by the `switch` in
`board_get_available_positions` (board.c): sliding pieces (rook, queen)
walk whole rays, stepping pieces (king, knight) examine one offset. -/
def pieceUnlimited : PieceType → Bool
  | .rook => true
  | .king => false
  | .queen => true
  | .knight => false

/-- The ray walk with the capacity check removed: every in-bounds unvisited
cell along the walk is collected.  Used to state what the capped walk
truncates. -/
def rayAll (b : Board) (dr dc : Int) (is_unlimited : Bool) :
    Nat → Int → Int → List Position
  | 0, _, _ => []
  | fuel + 1, r, c =>
    if inBounds b r c then
      (if board_get b r c = false then [Position.mk r c] else [])
      ++ (if is_unlimited then rayAll b dr dc is_unlimited fuel (r + dr) (c + dc) else [])
    else []

/-- All directions of the uncapped walk, concatenated in order. -/
def dirsAll (b : Board) (is_unlimited : Bool) : List (Int × Int) → List Position
  | [] => []
  | d :: rest =>
    rayAll b d.1 d.2 is_unlimited (rayFuel b) (b.pos.row + d.1) (b.pos.col + d.2)
    ++ dirsAll b is_unlimited rest

/-- The full legal-move list of the current position, with no capacity
bound: what `board_get_available_positions` would produce with an
unlimited buffer. -/
def availAll (b : Board) : List Position :=
  dirsAll b (pieceUnlimited b.piece_type) (pieceDirs b.piece_type)

/-- `q` lies on the open ray from `p` in direction `(dr, dc)`: it is the
`k`-th cell for some `k ≥ 1` and every cell of the ray from the first up to
`q` is in bounds.  Nothing is required of the visited state of the
intermediate cells: a ray only terminates on leaving the board. -/
def onOpenRay (b : Board) (p : Position) (dr dc : Int) (q : Position) : Prop :=
  ∃ k : Nat, 1 ≤ k ∧ q.row = p.row + k * dr ∧ q.col = p.col + k * dc ∧
    ∀ j : Nat, 1 ≤ j → j ≤ k → inBounds b (p.row + j * dr) (p.col + j * dc)

/-- The candidate list actually iterated by the `for` loop of `minimax`
(minimax.c): the generated moves, filtered when `symmetry && depth <= 3`,
then reordered when `heuristic`. -/
def candidateList (b : Board) (depth : Int) (heuristic symmetry : Bool) : List Position :=
  let avail := board_get_available_positions b MAX_POSITIONS
  let avail1 := if symmetry ∧ depth ≤ MAX_DEPTH_FOR_SYMMETRY
    then filter_symmetric_moves b avail else avail
  if heuristic then sort_moves_by_heuristic b avail1 else avail1

/-- The prefix of the candidate list whose children the `for` loop of
`minimax` actually evaluates: every candidate up to and including the first
one whose child reports the mover as winner (the short-circuited child is
included, as its node count has already been accumulated). -/
def exploredMoves (rec : Board → MinimaxResult) (b : Board) (player : Bool) :
    List Position → List Position
  | [] => []
  | m :: rest =>
    m :: (if (rec ((board_make_move b m).2)).winner = player then []
          else exploredMoves rec b player rest)

/-- Fresh 2×2 board, rook at (0,0): the concrete scenario of the spec. -/
def bRook2x2 : Board := mkBoard 2 2 ⟨0, 0⟩ .rook

/-- Fresh 3×3 board, king at the center (1,1): the concrete scenario of the
spec. -/
def bKing3x3 : Board := mkBoard 3 3 ⟨1, 1⟩ .king

/-- Fresh 1×258 board, rook at (0,0): a board whose rook move count (257)
exceeds the `MAX_POSITIONS` buffer capacity (256). -/
def bRook1x258 : Board := mkBoard 1 258 ⟨0, 0⟩ .rook

/-- Fresh 1×1 board, rook at (0,0): no legal move anywhere. -/
def bRook1x1 : Board := mkBoard 1 1 ⟨0, 0⟩ .rook

/-- Fresh 1×2 board, rook at (0,0): a single legal move. -/
def bRook1x2 : Board := mkBoard 1 2 ⟨0, 0⟩ .rook

/-! ## Basic lemmas: make/undo, index injectivity, the unvisited measure -/

/-- Applying a move and undoing it with the matching pair restores the board
exactly, provided the destination was unvisited (the undo clears the
destination bit back to its old value `0` and restores the old position). -/
theorem undo_make_of_unvisited (b : Board) (m : Position)
    (hun : board_get b m.row m.col = false) :
    board_undo_move ((board_make_move b m).2) m ((board_make_move b m).1) = b := by
  cases b with
  | mk rows cols vis pos piece =>
    simp only [board_make_move, board_undo_move, board_set, board_get] at *
    congr 1
    funext i
    by_cases hi : i = m.row * cols + m.col
    · subst hi; simp [hun]
    · simp [hi]

/-- Row-major indexing is injective on in-column-range coordinates. -/
theorem index_inj {cols r₁ c₁ r₂ c₂ : Int} (hc₁ : 0 ≤ c₁) (hc₁lt : c₁ < cols)
    (hc₂ : 0 ≤ c₂) (hc₂lt : c₂ < cols)
    (h : r₁ * cols + c₁ = r₂ * cols + c₂) : r₁ = r₂ ∧ c₁ = c₂ := by
  have hd : (r₁ - r₂) * cols = c₂ - c₁ := by ring_nf; linarith
  have hr : r₁ = r₂ := by
    rcases lt_trichotomy r₁ r₂ with hlt | heq | hgt
    · exfalso
      have h1 : (r₁ - r₂) * cols ≤ (-1) * cols :=
        mul_le_mul_of_nonneg_right (by omega) (by omega)
      linarith
    · exact heq
    · exfalso
      have h1 : 1 * cols ≤ (r₁ - r₂) * cols :=
        mul_le_mul_of_nonneg_right (by omega) (by omega)
      linarith
  refine ⟨hr, ?_⟩
  subst hr; omega

/-- Reading the board after a move: the destination bit is set, everything
else is unchanged. -/
theorem board_get_make (b : Board) (m : Position) (r c : Int) :
    board_get ((board_make_move b m).2) r c =
      if r * b.cols + c = m.row * b.cols + m.col then true else board_get b r c := rfl

/-- A move to an in-bounds unvisited cell decreases the number of in-bounds
unvisited cells by exactly one. -/
theorem unvisitedCount_make (b : Board) (m : Position)
    (hin : inBounds b m.row m.col) (hun : board_get b m.row m.col = false) :
    unvisitedCount ((board_make_move b m).2) + 1 = unvisitedCount b := by
  obtain ⟨hr0, hrlt, hc0, hclt⟩ := hin
  have hrows : ((board_make_move b m).2).rows = b.rows := rfl
  have hcols : ((board_make_move b m).2).cols = b.cols := rfl
  have hmem : (m.row.toNat, m.col.toNat) ∈
      (Finset.range b.rows.toNat ×ˢ Finset.range b.cols.toNat).filter
        (fun rc => board_get b rc.1 rc.2 = false) := by
    refine Finset.mem_filter.mpr ⟨Finset.mem_product.mpr ⟨?_, ?_⟩, ?_⟩
    · simp only [Finset.mem_range]; omega
    · simp only [Finset.mem_range]; omega
    · simpa [Int.toNat_of_nonneg hr0, Int.toNat_of_nonneg hc0] using hun
  have hset : (Finset.range b.rows.toNat ×ˢ Finset.range b.cols.toNat).filter
        (fun rc => board_get ((board_make_move b m).2) rc.1 rc.2 = false) =
      ((Finset.range b.rows.toNat ×ˢ Finset.range b.cols.toNat).filter
        (fun rc => board_get b rc.1 rc.2 = false)).erase (m.row.toNat, m.col.toNat) := by
    ext rc
    simp only [Finset.mem_filter, Finset.mem_erase, Finset.mem_product, Finset.mem_range]
    constructor
    · rintro ⟨⟨h1, h2⟩, h3⟩
      rw [board_get_make] at h3
      by_cases hidx : (rc.1 : Int) * b.cols + rc.2 = m.row * b.cols + m.col
      · simp [hidx] at h3
      · have hne : rc ≠ (m.row.toNat, m.col.toNat) := by
          intro hrc
          apply hidx
          rw [hrc]
          simp [Int.toNat_of_nonneg hr0, Int.toNat_of_nonneg hc0]
        simp [hidx] at h3
        exact ⟨hne, ⟨h1, h2⟩, h3⟩
    · rintro ⟨hne, ⟨h1, h2⟩, h3⟩
      refine ⟨⟨h1, h2⟩, ?_⟩
      rw [board_get_make]
      have hidx : ¬((rc.1 : Int) * b.cols + rc.2 = m.row * b.cols + m.col) := by
        intro hidx
        have hclt2 : (rc.2 : Int) < b.cols := by omega
        obtain ⟨hre, hce⟩ := index_inj (by omega) hclt2 hc0 hclt hidx
        exact hne (Prod.ext (by omega) (by omega))
      simp [hidx]
      exact h3
  rw [unvisitedCount, unvisitedCount, hrows, hcols, hset,
    Finset.card_erase_of_mem hmem]
  have : 0 < ((Finset.range b.rows.toNat ×ˢ Finset.range b.cols.toNat).filter
      (fun rc => board_get b rc.1 rc.2 = false)).card := Finset.card_pos.mpr ⟨_, hmem⟩
  omega

/-- An in-bounds unvisited cell makes the unvisited measure positive. -/
theorem unvisitedCount_pos (b : Board) (q : Position)
    (hin : inBounds b q.row q.col) (hun : board_get b q.row q.col = false) :
    0 < unvisitedCount b := by
  obtain ⟨hr0, hrlt, hc0, hclt⟩ := hin
  refine Finset.card_pos.mpr ⟨(q.row.toNat, q.col.toNat), Finset.mem_filter.mpr
    ⟨Finset.mem_product.mpr ⟨?_, ?_⟩, ?_⟩⟩
  · simp only [Finset.mem_range]; omega
  · simp only [Finset.mem_range]; omega
  · simpa [Int.toNat_of_nonneg hr0, Int.toNat_of_nonneg hc0] using hun

/-! ## Move generation: membership, truncation, characterization -/

/-- Every position produced by a ray walk is in bounds and unvisited. -/
theorem mem_rayWalk (b : Board) (dr dc : Int) (u : Bool) (maxp : Int) :
    ∀ (fuel : Nat) (r c : Int) (count : Nat) (q : Position),
      q ∈ rayWalk b dr dc u maxp fuel r c count →
      inBounds b q.row q.col ∧ board_get b q.row q.col = false := by
  intro fuel
  induction fuel with
  | zero => intro r c count q hq; simp [rayWalk] at hq
  | succ fuel ih =>
    intro r c count q hq
    rw [rayWalk] at hq
    by_cases hin : inBounds b r c
    · simp only [if_pos hin] at hq
      by_cases hv : board_get b r c = false ∧ (count : Int) < maxp
      · simp only [if_pos hv] at hq
        rcases List.mem_cons.mp hq with hq | hq
        · subst hq; exact ⟨hin, hv.1⟩
        · rcases u with _ | _
          · simp at hq
          · exact ih _ _ _ _ (by simpa using hq)
      · simp only [if_neg hv] at hq
        rcases u with _ | _
        · simp at hq
        · exact ih _ _ _ _ (by simpa using hq)
    · simp [if_neg hin] at hq

/-- Every position produced by the direction loop is in bounds and
unvisited. -/
theorem mem_dirsWalk (b : Board) (u : Bool) (maxp : Int) :
    ∀ (dirs : List (Int × Int)) (count : Nat) (q : Position),
      q ∈ dirsWalk b u maxp dirs count →
      inBounds b q.row q.col ∧ board_get b q.row q.col = false := by
  intro dirs
  induction dirs with
  | nil => intro count q hq; simp [dirsWalk] at hq
  | cons d rest ih =>
    intro count q hq
    rw [dirsWalk] at hq
    rcases List.mem_append.mp hq with hq | hq
    · exact mem_rayWalk b d.1 d.2 u maxp _ _ _ _ q hq
    · exact ih _ q hq

/-- Every generated legal move is in bounds and unvisited. -/
theorem mem_avail (b : Board) (maxp : Int) (q : Position)
    (hq : q ∈ board_get_available_positions b maxp) :
    inBounds b q.row q.col ∧ board_get b q.row q.col = false := by
  cases b with
  | mk rows cols vis pos piece =>
    cases piece <;>
      exact mem_dirsWalk _ _ maxp _ _ q hq

/-- The symmetry dedup loop only ever keeps elements of its input. -/
theorem filterSymGo_subset (b : Board) (hs vs : Bool) :
    ∀ (l : List Position) (seen : List Int) (q : Position),
      q ∈ filterSymGo b hs vs l seen → q ∈ l := by
  intro l
  induction l with
  | nil => intro seen q hq; simp [filterSymGo] at hq
  | cons p rest ih =>
    intro seen q hq
    rw [filterSymGo] at hq
    split at hq
    · exact List.mem_cons_of_mem p (ih _ q hq)
    · rcases List.mem_cons.mp hq with hq | hq
      · exact hq ▸ List.mem_cons_self p rest
      · exact List.mem_cons_of_mem p (ih _ q hq)

/-- The symmetry filter only ever keeps elements of its input. -/
theorem filter_symmetric_moves_subset (b : Board) (l : List Position) (q : Position)
    (hq : q ∈ filter_symmetric_moves b l) : q ∈ l := by
  rw [filter_symmetric_moves] at hq
  split at hq
  · exact hq
  · exact filterSymGo_subset b _ _ l [] q hq

/-- The ordering heuristic is a permutation: membership is unchanged. -/
theorem mem_sort_moves (b : Board) (l : List Position) (q : Position) :
    q ∈ sort_moves_by_heuristic b l ↔ q ∈ l :=
  (List.mergeSort_perm l _).mem_iff

/-- Every candidate the minimax loop iterates over is a generated legal
move. -/
theorem mem_candidateList (b : Board) (depth : Int) (h s : Bool) (m : Position)
    (hm : m ∈ candidateList b depth h s) :
    m ∈ board_get_available_positions b MAX_POSITIONS := by
  simp only [candidateList] at hm
  split at hm
  · rw [mem_sort_moves] at hm
    split at hm
    · exact filter_symmetric_moves_subset b _ m hm
    · exact hm
  · split at hm
    · exact filter_symmetric_moves_subset b _ m hm
    · exact hm

/-- When no in-bounds unvisited cell exists, the generator returns the
empty list. -/
theorem avail_eq_nil_of_unvisitedCount_eq_zero (b : Board) (maxp : Int)
    (h : unvisitedCount b = 0) : board_get_available_positions b maxp = [] := by
  cases hl : board_get_available_positions b maxp with
  | nil => rfl
  | cons q rest =>
    exfalso
    have hq : q ∈ board_get_available_positions b maxp := by
      rw [hl]; exact List.mem_cons_self q rest
    obtain ⟨hin, hun⟩ := mem_avail b maxp q hq
    have := unvisitedCount_pos b q hin hun
    omega

/-- The capped ray walk produces exactly the first `max_positions − count`
entries of the uncapped walk: the capacity check drops the tail silently. -/
theorem rayWalk_eq_take (b : Board) (dr dc : Int) (u : Bool) (maxp : Int) :
    ∀ (fuel : Nat) (r c : Int) (count : Nat),
      rayWalk b dr dc u maxp fuel r c count =
        (rayAll b dr dc u fuel r c).take (maxp - count).toNat := by
  intro fuel
  induction fuel with
  | zero => intro r c count; simp [rayWalk, rayAll]
  | succ fuel ih =>
    intro r c count
    rw [rayWalk, rayAll]
    by_cases hin : inBounds b r c
    · simp only [if_pos hin]
      by_cases hv : board_get b r c = false
      · by_cases hcnt : (count : Int) < maxp
        · have hn : (maxp - count).toNat = (maxp - (count + 1 : Nat)).toNat + 1 := by
            push_cast; omega
          rw [if_pos ⟨hv, hcnt⟩, if_pos hv, hn]
          cases u
          · simp
          · simp [List.take_succ_cons, ih]
        · have hand : ¬(board_get b r c = false ∧ (count : Int) < maxp) := by
            intro hh; exact hcnt hh.2
          have hn : (maxp - count).toNat = 0 := by omega
          rw [if_neg hand, if_pos hv, hn]
          cases u
          · simp
          · simp only [List.singleton_append, List.take_zero, ih]
            have hn2 : (maxp - (count : Int)).toNat = 0 := by omega
            rw [hn2]
            simp
      · have hand : ¬(board_get b r c = false ∧ (count : Int) < maxp) := by
          intro hh; exact hv hh.1
        rw [if_neg hand, if_neg hv]
        cases u
        · simp
        · simp [ih]
    · simp [if_neg hin]

/-- The capped direction loop produces exactly the first
`max_positions − count` entries of the uncapped one. -/
theorem dirsWalk_eq_take (b : Board) (u : Bool) (maxp : Int) :
    ∀ (dirs : List (Int × Int)) (count : Nat),
      dirsWalk b u maxp dirs count = (dirsAll b u dirs).take (maxp - count).toNat := by
  intro dirs
  induction dirs with
  | nil => intro count; simp [dirsWalk, dirsAll]
  | cons d rest ih =>
    intro count
    simp only [dirsWalk, dirsAll]
    rw [rayWalk_eq_take, ih, List.take_append_eq_append_take]
    congr 1
    simp only [List.length_take]
    congr 1
    have hlen : (rayAll b d.1 d.2 u (rayFuel b) (b.pos.row + d.1) (b.pos.col + d.2)).length
        = (rayAll b d.1 d.2 u (rayFuel b) (b.pos.row + d.1) (b.pos.col + d.2)).length := rfl
    push_cast
    omega

/-- `check_positions_in_directions` returns the first `max_positions`
entries of the uncapped generation. -/
theorem check_positions_eq_take (b : Board) (dirs : List (Int × Int)) (u : Bool) (maxp : Int) :
    check_positions_in_directions b dirs u maxp = (dirsAll b u dirs).take maxp.toNat := by
  rw [check_positions_in_directions, dirsWalk_eq_take]
  norm_num

/-- `board_get_available_positions` returns the first `max_positions`
entries of the full legal-move list: beyond the capacity bound, legal moves
are silently dropped. -/
theorem avail_eq_take (b : Board) (maxp : Int) :
    board_get_available_positions b maxp = (availAll b).take maxp.toNat := by
  cases b with
  | mk rows cols vis pos piece =>
    cases piece <;>
      simp [board_get_available_positions, availAll, pieceDirs, pieceUnlimited,
        check_positions_eq_take]

/-- When the full legal-move list fits in the buffer, nothing is dropped. -/
theorem avail_eq_availAll (b : Board) (maxp : Int)
    (h : (availAll b).length ≤ maxp.toNat) :
    board_get_available_positions b maxp = availAll b := by
  rw [avail_eq_take]
  exact List.take_of_length_le h

/-- Membership in an uncapped unlimited ray walk starting at `(r, c)`:
exactly the unvisited cells `(r + k·dr, c + k·dc)` whose whole prefix of the
walk (from the start cell on) stays in bounds.  Visited cells on the way are
skipped but do not stop the walk; only leaving the board (or running out of
fuel) does. -/
theorem mem_rayAll_unlimited (b : Board) (dr dc : Int) :
    ∀ (fuel : Nat) (r c : Int) (q : Position),
      q ∈ rayAll b dr dc true fuel r c ↔
        ∃ k : Nat, k < fuel ∧ q.row = r + k * dr ∧ q.col = c + k * dc ∧
          (∀ j : Nat, j ≤ k → inBounds b (r + j * dr) (c + j * dc)) ∧
          board_get b q.row q.col = false := by
  intro fuel
  induction fuel with
  | zero =>
    intro r c q
    simp [rayAll]
  | succ fuel ih =>
    intro r c q
    rw [rayAll]
    by_cases hin : inBounds b r c
    · rw [if_pos hin]
      simp only [if_pos rfl, List.mem_append]
      constructor
      · intro hq
        rcases hq with hq | hq
        · by_cases hv : board_get b r c = false
          · rw [if_pos hv] at hq
            simp only [List.mem_singleton] at hq
            subst hq
            refine ⟨0, by omega, by simp, by simp, ?_, by simpa using hv⟩
            intro j hj
            have hj0 : j = 0 := by omega
            subst hj0
            simpa using hin
          · rw [if_neg hv] at hq
            simp at hq
        · simp only [if_true] at hq
          rw [ih] at hq
          obtain ⟨k, hk, hrow, hcol, hchain, hget⟩ := hq
          refine ⟨k + 1, by omega, ?_, ?_, ?_, hget⟩
          · rw [hrow]; push_cast; ring
          · rw [hcol]; push_cast; ring
          · intro j hj
            cases j with
            | zero => simpa using hin
            | succ i =>
              have hi : i ≤ k := by omega
              have := hchain i hi
              have harg : r + (i + 1 : Nat) * dr = r + dr + i * dr := by push_cast; ring
              have harg2 : c + (i + 1 : Nat) * dc = c + dc + i * dc := by push_cast; ring
              rw [harg, harg2]
              exact this
      · rintro ⟨k, hk, hrow, hcol, hchain, hget⟩
        cases k with
        | zero =>
          left
          simp only [Nat.cast_zero, zero_mul, add_zero] at hrow hcol
          have hq : q = Position.mk r c := by
            cases q; simp at hrow hcol; simp [hrow, hcol]
          subst hq
          simp only at hget
          rw [if_pos (by simpa using hget)]
          simp
        | succ k =>
          right
          simp only [if_true]
          rw [ih]
          refine ⟨k, by omega, ?_, ?_, ?_, hget⟩
          · rw [hrow]; push_cast; ring
          · rw [hcol]; push_cast; ring
          · intro j hj
            have := hchain (j + 1) (by omega)
            have harg : r + (j + 1 : Nat) * dr = r + dr + j * dr := by push_cast; ring
            have harg2 : c + (j + 1 : Nat) * dc = c + dc + j * dc := by push_cast; ring
            rw [harg, harg2] at this
            exact this
    · rw [if_neg hin]
      simp only [List.not_mem_nil, false_iff]
      rintro ⟨k, hk, hrow, hcol, hchain, hget⟩
      exact hin (by simpa using hchain 0 (by omega))

/-- Membership in an uncapped limited (stepping) walk: the single offset
cell, iff the walk has fuel, the cell is in bounds and it is unvisited. -/
theorem mem_rayAll_limited (b : Board) (dr dc : Int) (fuel : Nat) (r c : Int) (q : Position) :
    q ∈ rayAll b dr dc false (fuel + 1) r c ↔
      q = Position.mk r c ∧ inBounds b r c ∧ board_get b r c = false := by
  rw [rayAll]
  by_cases hin : inBounds b r c
  · rw [if_pos hin]
    by_cases hv : board_get b r c = false
    · rw [if_pos hv]
      simp [hin, hv]
    · rw [if_neg hv]
      simp [hv]
  · rw [if_neg hin]
    simp [hin]

/-- Membership in the uncapped direction loop: membership in one of the
per-direction walks. -/
theorem mem_dirsAll (b : Board) (u : Bool) :
    ∀ (dirs : List (Int × Int)) (q : Position),
      q ∈ dirsAll b u dirs ↔
        ∃ d ∈ dirs, q ∈ rayAll b d.1 d.2 u (rayFuel b) (b.pos.row + d.1) (b.pos.col + d.2) := by
  intro dirs
  induction dirs with
  | nil => intro q; simp [dirsAll]
  | cons d rest ih =>
    intro q
    rw [dirsAll]
    simp [List.mem_append, ih]

/-- A walk along a unit direction that is in bounds at its start and at its
`k`-th step cannot have taken more than `rows + cols` steps: the ray fuel is
never the binding constraint. -/
theorem chain_bound (b : Board) (r c dr dc : Int) (k : Nat)
    (hdr : dr = 0 ∨ dr = 1 ∨ dr = -1) (hdc : dc = 0 ∨ dc = 1 ∨ dc = -1)
    (hnz : ¬(dr = 0 ∧ dc = 0))
    (h0 : inBounds b r c) (hk : inBounds b (r + k * dr) (c + k * dc)) :
    k < rayFuel b := by
  obtain ⟨hr0, hrlt, hc0, hclt⟩ := h0
  obtain ⟨hkr0, hkrlt, hkc0, hkclt⟩ := hk
  rw [rayFuel]
  rcases hdr with h1 | h1 | h1 <;> rcases hdc with h2 | h2 | h2
  · exact (hnz ⟨h1, h2⟩).elim
  all_goals subst h1
  all_goals subst h2
  all_goals omega

/-- The ray walk of an unlimited (sliding) direction, started one step from
the current position, contains exactly the unvisited cells of the open ray:
the `k`-th ray cell for some `k ≥ 1` such that the ray is in bounds at every
step `1..k`.  Intermediate visited cells do not terminate the ray. -/
theorem mem_ray_iff_onOpenRay (b : Board) (dr dc : Int)
    (hdr : dr = 0 ∨ dr = 1 ∨ dr = -1) (hdc : dc = 0 ∨ dc = 1 ∨ dc = -1)
    (hnz : ¬(dr = 0 ∧ dc = 0)) (q : Position) :
    q ∈ rayAll b dr dc true (rayFuel b) (b.pos.row + dr) (b.pos.col + dc) ↔
      onOpenRay b b.pos dr dc q ∧ board_get b q.row q.col = false := by
  rw [mem_rayAll_unlimited]
  constructor
  · rintro ⟨k, hk, hrow, hcol, hchain, hget⟩
    refine ⟨⟨k + 1, by omega, ?_, ?_, ?_⟩, hget⟩
    · rw [hrow]; push_cast; ring
    · rw [hcol]; push_cast; ring
    · intro j hj1 hjk
      obtain ⟨i, rfl⟩ : ∃ i, j = i + 1 := ⟨j - 1, by omega⟩
      have hmem := hchain i (by omega)
      have harg : b.pos.row + (i + 1 : Nat) * dr = b.pos.row + dr + i * dr := by
        push_cast; ring
      have harg2 : b.pos.col + (i + 1 : Nat) * dc = b.pos.col + dc + i * dc := by
        push_cast; ring
      rw [harg, harg2]
      exact hmem
  · rintro ⟨⟨k, hk1, hrow, hcol, hchain⟩, hget⟩
    obtain ⟨i, rfl⟩ : ∃ i, k = i + 1 := ⟨k - 1, by omega⟩
    have hshiftr : ∀ j : Nat, b.pos.row + (j + 1 : Nat) * dr = b.pos.row + dr + j * dr := by
      intro j; push_cast; ring
    have hshiftc : ∀ j : Nat, b.pos.col + (j + 1 : Nat) * dc = b.pos.col + dc + j * dc := by
      intro j; push_cast; ring
    have h0e : inBounds b (b.pos.row + dr) (b.pos.col + dc) := by
      have h0 := hchain 1 (by omega) (by omega)
      simpa using h0
    have hke : inBounds b (b.pos.row + dr + i * dr) (b.pos.col + dc + i * dc) := by
      have hk2 := hchain (i + 1) (by omega) (by omega)
      rw [hshiftr i, hshiftc i] at hk2
      exact hk2
    refine ⟨i, chain_bound b _ _ dr dc i hdr hdc hnz h0e hke, ?_, ?_, ?_, hget⟩
    · rw [hrow, hshiftr i]
    · rw [hcol, hshiftc i]
    · intro j hj
      have hj2 := hchain (j + 1) (by omega) (by omega)
      rw [hshiftr j, hshiftc j] at hj2
      exact hj2

/-- All direction entries of the sliding pieces are unit vectors. -/
theorem sliding_dirs_unit (pt : PieceType) (hu : pieceUnlimited pt = true) :
    ∀ d ∈ pieceDirs pt,
      (d.1 = 0 ∨ d.1 = 1 ∨ d.1 = -1) ∧ (d.2 = 0 ∨ d.2 = 1 ∨ d.2 = -1) ∧
      ¬(d.1 = 0 ∧ d.2 = 0) := by
  cases pt
  · decide
  · simp [pieceUnlimited] at hu
  · decide
  · simp [pieceUnlimited] at hu

/-- Full legal-move list of a sliding piece (rook or queen): exactly the
unvisited cells on the open rays from the current position, where a ray only
terminates on leaving the board and continues past visited cells. -/
theorem mem_availAll_sliding (b : Board) (hu : pieceUnlimited b.piece_type = true)
    (q : Position) :
    q ∈ availAll b ↔ ∃ d ∈ pieceDirs b.piece_type,
      onOpenRay b b.pos d.1 d.2 q ∧ board_get b q.row q.col = false := by
  rw [availAll, hu, mem_dirsAll]
  constructor
  · rintro ⟨d, hd, hq⟩
    obtain ⟨h1, h2, h3⟩ := sliding_dirs_unit b.piece_type hu d hd
    exact ⟨d, hd, (mem_ray_iff_onOpenRay b d.1 d.2 h1 h2 h3 q).mp hq⟩
  · rintro ⟨d, hd, hq⟩
    obtain ⟨h1, h2, h3⟩ := sliding_dirs_unit b.piece_type hu d hd
    exact ⟨d, hd, (mem_ray_iff_onOpenRay b d.1 d.2 h1 h2 h3 q).mpr hq⟩

/-- Full legal-move list of a stepping piece (king or knight): exactly one
offset per direction, included iff in bounds and unvisited. -/
theorem mem_availAll_stepping (b : Board) (hu : pieceUnlimited b.piece_type = false)
    (q : Position) :
    q ∈ availAll b ↔ ∃ d ∈ pieceDirs b.piece_type,
      q.row = b.pos.row + d.1 ∧ q.col = b.pos.col + d.2 ∧
      inBounds b q.row q.col ∧ board_get b q.row q.col = false := by
  have hfuel : rayFuel b = (b.rows.toNat + b.cols.toNat + 1) + 1 := rfl
  rw [availAll, hu, mem_dirsAll]
  constructor
  · rintro ⟨d, hd, hq⟩
    rw [hfuel, mem_rayAll_limited] at hq
    obtain ⟨rfl, hin, hget⟩ := hq
    exact ⟨d, hd, rfl, rfl, hin, hget⟩
  · rintro ⟨d, hd, hrow, hcol, hin, hget⟩
    refine ⟨d, hd, ?_⟩
    rw [hfuel, mem_rayAll_limited]
    have hq : q = Position.mk (b.pos.row + d.1) (b.pos.col + d.2) := by
      cases q
      simp only at hrow hcol
      rw [hrow, hcol]
    refine ⟨hq, ?_, ?_⟩
    · rw [← hrow, ← hcol]; exact hin
    · rw [← hrow, ← hcol]; exact hget

/-! ## The minimax recursion: unfolding, loop accounting, fuel independence -/

/-- One-step unfolding of the fuel-indexed minimax: empty candidate set means
the mover loses with node count 1; otherwise the loop runs over the filtered
and ordered candidate list with the accumulator starting at 1. -/
theorem minimaxFuel_succ (fuel : Nat) (b : Board) (depth : Int)
    (player verbose heuristic symmetry : Bool) :
    minimaxFuel (fuel + 1) b depth player verbose heuristic symmetry =
      if (board_get_available_positions b MAX_POSITIONS).length = 0 then ⟨!player, 1⟩
      else
        searchLoop
          (fun b1 => minimaxFuel fuel b1 (depth + 1) (!player) verbose heuristic symmetry)
          b player (candidateList b depth heuristic symmetry) 1 := rfl

/-- The loop result depends on the recursive evaluator only through its
values on the child boards of the (unvisited) candidates: the board is
restored exactly before each next iteration. -/
theorem searchLoop_congr (rec₁ rec₂ : Board → MinimaxResult) (b : Board) (player : Bool) :
    ∀ (l : List Position) (acc : Int),
      (∀ m ∈ l, board_get b m.row m.col = false) →
      (∀ m ∈ l, rec₁ ((board_make_move b m).2) = rec₂ ((board_make_move b m).2)) →
      searchLoop rec₁ b player l acc = searchLoop rec₂ b player l acc := by
  intro l
  induction l with
  | nil => intro acc hun hrec; rfl
  | cons m rest ih =>
    intro acc hun hrec
    rw [searchLoop, searchLoop]
    rw [undo_make_of_unvisited b m (hun m (List.mem_cons_self m rest))]
    rw [hrec m (List.mem_cons_self m rest)]
    split
    · rfl
    · exact ih _ (fun q hq => hun q (List.mem_cons_of_mem m hq))
        (fun q hq => hrec q (List.mem_cons_of_mem m hq))

/-- The explored prefix depends on the recursive evaluator only through its
values on the child boards. -/
theorem exploredMoves_congr (rec₁ rec₂ : Board → MinimaxResult) (b : Board) (player : Bool) :
    ∀ l : List Position,
      (∀ m ∈ l, rec₁ ((board_make_move b m).2) = rec₂ ((board_make_move b m).2)) →
      exploredMoves rec₁ b player l = exploredMoves rec₂ b player l := by
  intro l
  induction l with
  | nil => intro hrec; rfl
  | cons m rest ih =>
    intro hrec
    rw [exploredMoves, exploredMoves]
    rw [hrec m (List.mem_cons_self m rest)]
    congr 1
    split
    · rfl
    · exact ih (fun q hq => hrec q (List.mem_cons_of_mem m hq))

/-- Node-count accounting of the candidate loop: the result is the incoming
accumulator plus the node counts of exactly the explored children (the
short-circuiting child included). -/
theorem searchLoop_node_count (rec : Board → MinimaxResult) (b : Board) (player : Bool) :
    ∀ (l : List Position) (acc : Int),
      (∀ m ∈ l, board_get b m.row m.col = false) →
      (searchLoop rec b player l acc).node_count =
        acc + ((exploredMoves rec b player l).map
          (fun m => (rec ((board_make_move b m).2)).node_count)).sum := by
  intro l
  induction l with
  | nil => intro acc hun; simp [searchLoop, exploredMoves]
  | cons m rest ih =>
    intro acc hun
    rw [searchLoop, exploredMoves]
    rw [undo_make_of_unvisited b m (hun m (List.mem_cons_self m rest))]
    split
    · simp
    · rw [ih _ (fun q hq => hun q (List.mem_cons_of_mem m hq))]
      simp
      ring

/-- The winner resulting from the candidate loop: the mover wins iff some
candidate's child reports the mover as winner. -/
theorem searchLoop_winner (rec : Board → MinimaxResult) (b : Board) (player : Bool) :
    ∀ (l : List Position) (acc : Int),
      (∀ m ∈ l, board_get b m.row m.col = false) →
      (searchLoop rec b player l acc).winner =
        if ∃ m ∈ l, (rec ((board_make_move b m).2)).winner = player then player else !player := by
  intro l
  induction l with
  | nil => intro acc hun; simp [searchLoop]
  | cons m rest ih =>
    intro acc hun
    rw [searchLoop]
    rw [undo_make_of_unvisited b m (hun m (List.mem_cons_self m rest))]
    by_cases hw : (rec ((board_make_move b m).2)).winner = player
    · rw [if_pos hw, if_pos ⟨m, List.mem_cons_self m rest, hw⟩]
    · rw [if_neg hw, ih _ (fun q hq => hun q (List.mem_cons_of_mem m hq))]
      by_cases hex : ∃ q ∈ rest, (rec ((board_make_move b q).2)).winner = player
      · obtain ⟨q, hq, hqw⟩ := hex
        rw [if_pos ⟨q, hq, hqw⟩, if_pos ⟨q, List.mem_cons_of_mem m hq, hqw⟩]
      · rw [if_neg hex, if_neg ?_]
        rintro ⟨q, hq, hqw⟩
        rcases List.mem_cons.mp hq with rfl | hq2
        · exact hw hqw
        · exact hex ⟨q, hq2, hqw⟩

/-- The `verbose` flag is threaded through the recursion but never read
(it only guards `printf` in the C code): results are identical for any two
settings of it. -/
theorem minimaxFuel_verbose_invariant :
    ∀ (fuel : Nat) (b : Board) (depth : Int) (player v₁ v₂ heuristic symmetry : Bool),
      minimaxFuel fuel b depth player v₁ heuristic symmetry =
        minimaxFuel fuel b depth player v₂ heuristic symmetry := by
  intro fuel
  induction fuel with
  | zero => intro b depth player v₁ v₂ h s; rfl
  | succ fuel ih =>
    intro b depth player v₁ v₂ h s
    rw [minimaxFuel_succ, minimaxFuel_succ]
    split
    · rfl
    · refine searchLoop_congr _ _ b player _ 1 ?_ ?_
      · intro m hm
        exact (mem_avail b MAX_POSITIONS m (mem_candidateList b depth h s m hm)).2
      · intro m hm
        exact ih _ _ _ _ _ _ _

/-- Fuel independence: any fuel strictly above the number of in-bounds
unvisited cells produces the same result — the recursion terminates within
that depth because every ply removes one unvisited cell. -/
theorem minimaxFuel_indep :
    ∀ (n : Nat) (b : Board) (f₁ f₂ : Nat) (depth : Int) (player v h s : Bool),
      unvisitedCount b ≤ n → n < f₁ → n < f₂ →
      minimaxFuel f₁ b depth player v h s = minimaxFuel f₂ b depth player v h s := by
  intro n
  induction n with
  | zero =>
    intro b f₁ f₂ depth player v h s hcnt hf₁ hf₂
    obtain ⟨f₁, rfl⟩ : ∃ g, f₁ = g + 1 := ⟨f₁ - 1, by omega⟩
    obtain ⟨f₂, rfl⟩ : ∃ g, f₂ = g + 1 := ⟨f₂ - 1, by omega⟩
    have hnil : board_get_available_positions b MAX_POSITIONS = [] :=
      avail_eq_nil_of_unvisitedCount_eq_zero b MAX_POSITIONS (by omega)
    rw [minimaxFuel_succ, minimaxFuel_succ, hnil]
    rfl
  | succ n ih =>
    intro b f₁ f₂ depth player v h s hcnt hf₁ hf₂
    obtain ⟨f₁, rfl⟩ : ∃ g, f₁ = g + 1 := ⟨f₁ - 1, by omega⟩
    obtain ⟨f₂, rfl⟩ : ∃ g, f₂ = g + 1 := ⟨f₂ - 1, by omega⟩
    rw [minimaxFuel_succ, minimaxFuel_succ]
    split
    · rfl
    · refine searchLoop_congr _ _ b player _ 1 ?_ ?_
      · intro m hm
        exact (mem_avail b MAX_POSITIONS m (mem_candidateList b depth h s m hm)).2
      · intro m hm
        obtain ⟨hin, hun⟩ := mem_avail b MAX_POSITIONS m (mem_candidateList b depth h s m hm)
        have hdec := unvisitedCount_make b m hin hun
        exact ih ((board_make_move b m).2) f₁ f₂ (depth + 1) (!player) v h s
          (by omega) (by omega) (by omega)

/-- Any sufficient fuel computes `minimax`. -/
theorem minimaxFuel_eq_minimax (b : Board) (f : Nat) (depth : Int) (player v h s : Bool)
    (hf : unvisitedCount b < f) :
    minimaxFuel f b depth player v h s = minimax b depth player v h s :=
  minimaxFuel_indep (unvisitedCount b) b f (unvisitedCount b + 1) depth player v h s
    (le_refl _) hf (Nat.lt_succ_self _)

/-- A freshly created board with an in-bounds start cell has strictly fewer
than `rows · cols` unvisited cells (the start cell is marked visited). -/
theorem unvisitedCount_mkBoard_lt (rows cols : Int) (start : Position) (pt : PieceType)
    (hr : 0 < rows) (hc : 0 < cols)
    (hsr : 0 ≤ start.row) (hsrlt : start.row < rows)
    (hsc : 0 ≤ start.col) (hsclt : start.col < cols) :
    unvisitedCount (mkBoard rows cols start pt) < (rows * cols).toNat := by
  have harea : (rows * cols).toNat = rows.toNat * cols.toNat := by
    rcases Int.eq_ofNat_of_zero_le hr.le with ⟨m, rfl⟩
    rcases Int.eq_ofNat_of_zero_le hc.le with ⟨n, rfl⟩
    rw [← Int.natCast_mul, Int.toNat_natCast, Int.toNat_natCast, Int.toNat_natCast]
  have hmemS : (start.row.toNat, start.col.toNat) ∈
      Finset.range rows.toNat ×ˢ Finset.range cols.toNat := by
    refine Finset.mem_product.mpr ⟨?_, ?_⟩ <;> simp only [Finset.mem_range] <;> omega
  have hvisited : board_get (mkBoard rows cols start pt) start.row.toNat start.col.toNat
      = true := by
    rw [Int.toNat_of_nonneg hsr, Int.toNat_of_nonneg hsc]
    simp [mkBoard, board_set, board_get]
  have hss : (Finset.range rows.toNat ×ˢ Finset.range cols.toNat).filter
        (fun rc => board_get (mkBoard rows cols start pt) rc.1 rc.2 = false) ⊂
      Finset.range rows.toNat ×ˢ Finset.range cols.toNat := by
    refine Finset.ssubset_iff_of_subset (Finset.filter_subset _ _) |>.mpr ?_
    refine ⟨(start.row.toNat, start.col.toNat), hmemS, ?_⟩
    intro hmemF
    have := (Finset.mem_filter.mp hmemF).2
    rw [hvisited] at this
    simp at this
  calc unvisitedCount (mkBoard rows cols start pt)
      < (Finset.range rows.toNat ×ˢ Finset.range cols.toNat).card :=
        Finset.card_lt_card hss
    _ = (rows * cols).toNat := by
        rw [Finset.card_product, Finset.card_range, Finset.card_range, harea]

/-- The explored prefix is a sublist of the candidate list. -/
theorem exploredMoves_subset (rec : Board → MinimaxResult) (b : Board) (player : Bool) :
    ∀ (l : List Position) (q : Position), q ∈ exploredMoves rec b player l → q ∈ l := by
  intro l
  induction l with
  | nil => intro q hq; simp [exploredMoves] at hq
  | cons m rest ih =>
    intro q hq
    rw [exploredMoves] at hq
    rcases List.mem_cons.mp hq with rfl | hq2
    · exact List.mem_cons_self q rest
    · split at hq2
      · simp at hq2
      · exact List.mem_cons_of_mem m (ih q hq2)

/-! ## Claim theorems -/

/-- Claim C2, counterexample: on the fresh 2×2 rook board the search (all
options off, as called from `main`: depth 0, first player) does **not**
return second-player-wins with 5 visited states — the game is a forced
3-move line, so the first player wins and 4 states are visited. -/
theorem c2_counterexample :
    ¬((minimax bRook2x2 0 true false false false).winner = false ∧
      (minimax bRook2x2 0 true false false false).node_count = 5) := by decide

/-- Claim C2, amended: on a 2×2 board with a rook starting at (0,0), with
all options off, the legal moves from (0,0) are exactly {(0,1), (1,0)} (in
generation order [(1,0), (0,1)]), and the search returns
**first-player-wins** with `statesVisited = 4`. -/
theorem c2_amended :
    board_get_available_positions bRook2x2 MAX_POSITIONS = [⟨1, 0⟩, ⟨0, 1⟩]
    ∧ (∀ q : Position, q ∈ board_get_available_positions bRook2x2 MAX_POSITIONS ↔
        q = ⟨0, 1⟩ ∨ q = ⟨1, 0⟩)
    ∧ minimax bRook2x2 0 true false false false = ⟨true, 4⟩ := by
  refine ⟨by decide, ?_, by decide⟩
  intro q
  rw [show board_get_available_positions bRook2x2 MAX_POSITIONS =
    [⟨1, 0⟩, ⟨0, 1⟩] from by decide]
  simp [or_comm]

/-- Claim C3, counterexample: `board_create` performs no dimension check —
called with `rows = 0`, `cols = 0` it still returns a constructed board
(the C function can only fail on allocation, which is not modelled). -/
theorem c3_counterexample :
    (board_create 0 0 ⟨0, 0⟩ PieceType.rook).isSome = true := by decide

/-- Claim C3, amended: `board_create` itself performs no dimension
validation and returns a constructed board even when `rows ≤ 0` or
`cols ≤ 0` (absent allocation failure); the dimension check lives in the
CLI entry point `main`, which rejects `rows ≤ 0 ∨ cols ≤ 0` before
`board_create` is called, for every start cell and piece type. -/
theorem c3_amended :
    ∀ (rows cols : Int) (pos : Position) (pt : PieceType),
      rows ≤ 0 ∨ cols ≤ 0 →
      (board_create rows cols pos pt).isSome = true
      ∧ cliValidate rows cols pos.row pos.col = false := by
  intro rows cols pos pt hle
  refine ⟨rfl, ?_⟩
  rw [cliValidate, if_pos hle]

/-- Claim C3, witness for the amended claim at `rows = 0`, `cols = 5`. -/
theorem c3_amended_witness :
    ((0 : Int) ≤ 0 ∨ (5 : Int) ≤ 0)
    ∧ (board_create 0 5 ⟨0, 0⟩ PieceType.rook).isSome = true
    ∧ cliValidate 0 5 0 0 = false :=
  ⟨Or.inl le_rfl, c3_amended 0 5 ⟨0, 0⟩ PieceType.rook (Or.inl le_rfl)⟩

/-- Claim C4: when the buffer capacity is not exceeded, move generation is
characterized exactly.  For a sliding piece (`is_unlimited` true: rook,
queen), the generated moves are exactly the unvisited cells on the open
rays from the current position — the ray is walked one cell at a time, every
cell of the ray up to the move is in bounds (a ray terminates only on
leaving the board), and nothing is required of intermediate visited cells
(the walk continues past them).  For a stepping piece (king, knight),
exactly one offset per direction is examined, included iff in bounds and
unvisited. -/
theorem c4_move_generation (b : Board) (maxp : Int)
    (hcap : ((availAll b).length : Int) ≤ maxp) :
    (pieceUnlimited b.piece_type = true →
      ∀ q : Position, q ∈ board_get_available_positions b maxp ↔
        ∃ d ∈ pieceDirs b.piece_type,
          onOpenRay b b.pos d.1 d.2 q ∧ board_get b q.row q.col = false)
    ∧ (pieceUnlimited b.piece_type = false →
      ∀ q : Position, q ∈ board_get_available_positions b maxp ↔
        ∃ d ∈ pieceDirs b.piece_type,
          q.row = b.pos.row + d.1 ∧ q.col = b.pos.col + d.2 ∧
          inBounds b q.row q.col ∧ board_get b q.row q.col = false) := by
  have hgen : board_get_available_positions b maxp = availAll b :=
    avail_eq_availAll b maxp (by omega)
  constructor
  · intro hu q
    rw [hgen]
    exact mem_availAll_sliding b hu q
  · intro hu q
    rw [hgen]
    exact mem_availAll_stepping b hu q

/-- Claim C4, witness on the fresh 2×2 rook board with the real capacity. -/
theorem c4_move_generation_witness :
    (((availAll bRook2x2).length : Int) ≤ MAX_POSITIONS)
    ∧ ((pieceUnlimited bRook2x2.piece_type = true →
      ∀ q : Position, q ∈ board_get_available_positions bRook2x2 MAX_POSITIONS ↔
        ∃ d ∈ pieceDirs bRook2x2.piece_type,
          onOpenRay bRook2x2 bRook2x2.pos d.1 d.2 q ∧ board_get bRook2x2 q.row q.col = false)
    ∧ (pieceUnlimited bRook2x2.piece_type = false →
      ∀ q : Position, q ∈ board_get_available_positions bRook2x2 MAX_POSITIONS ↔
        ∃ d ∈ pieceDirs bRook2x2.piece_type,
          q.row = bRook2x2.pos.row + d.1 ∧ q.col = bRook2x2.pos.col + d.2 ∧
          inBounds bRook2x2 q.row q.col ∧ board_get bRook2x2 q.row q.col = false)) :=
  ⟨by decide, c4_move_generation bRook2x2 MAX_POSITIONS (by decide)⟩

/-- Claim C5: node-count accounting of the search.  For every board, piece
type (in the board), depth, player flag and option setting: a call whose
candidate list is empty returns `statesVisited = 1` with the winner being
the side opposite the mover; otherwise the returned `statesVisited` is 1
plus the sum of the `statesVisited` of exactly the recursive calls made —
the explored prefix of the candidate list, the short-circuiting child
included. -/
theorem c5_node_count_recurrence :
    ∀ (b : Board) (depth : Int) (player v h s : Bool),
      ((board_get_available_positions b MAX_POSITIONS).length = 0 →
        minimax b depth player v h s = ⟨!player, 1⟩)
      ∧ (board_get_available_positions b MAX_POSITIONS ≠ [] →
        (minimax b depth player v h s).node_count =
          1 + ((exploredMoves (fun b1 => minimax b1 (depth + 1) (!player) v h s) b player
              (candidateList b depth h s)).map
            (fun m => (minimax ((board_make_move b m).2)
              (depth + 1) (!player) v h s).node_count)).sum) := by
  intro b depth player v h s
  constructor
  · intro hlen
    rw [minimax, minimaxFuel_succ, if_pos hlen]
  · intro hne
    have hlen : ¬((board_get_available_positions b MAX_POSITIONS).length = 0) := by
      intro h0
      exact hne (List.length_eq_zero.mp h0)
    rw [minimax, minimaxFuel_succ, if_neg hlen]
    have hun : ∀ m ∈ candidateList b depth h s, board_get b m.row m.col = false :=
      fun m hm => (mem_avail b MAX_POSITIONS m (mem_candidateList b depth h s m hm)).2
    rw [searchLoop_node_count _ b player _ 1 hun]
    have hrec : ∀ m ∈ candidateList b depth h s,
        minimaxFuel (unvisitedCount b) ((board_make_move b m).2) (depth + 1) (!player) v h s
          = minimax ((board_make_move b m).2) (depth + 1) (!player) v h s := by
      intro m hm
      obtain ⟨hin, hunm⟩ := mem_avail b MAX_POSITIONS m (mem_candidateList b depth h s m hm)
      have hdec := unvisitedCount_make b m hin hunm
      exact minimaxFuel_eq_minimax _ _ _ _ _ _ _ (by omega)
    rw [exploredMoves_congr _ (fun b1 => minimax b1 (depth + 1) (!player) v h s)
      b player _ hrec]
    congr 1
    congr 1
    apply List.map_congr_left
    intro m hm
    exact congrArg MinimaxResult.node_count
      (hrec m (exploredMoves_subset _ b player _ m hm))

/-- Claim C5, witness: the empty-candidate clause on the 1×1 board and the
recurrence clause on the 1×2 board. -/
theorem c5_node_count_recurrence_witness :
    ((board_get_available_positions bRook1x1 MAX_POSITIONS).length = 0
      ∧ minimax bRook1x1 0 true false false false = ⟨false, 1⟩)
    ∧ (board_get_available_positions bRook1x2 MAX_POSITIONS ≠ []
      ∧ (minimax bRook1x2 0 true false false false).node_count =
          1 + ((exploredMoves (fun b1 => minimax b1 (0 + 1) (!true) false false false)
              bRook1x2 true (candidateList bRook1x2 0 false false)).map
            (fun m => (minimax ((board_make_move bRook1x2 m).2)
              (0 + 1) (!true) false false false).node_count)).sum) := by
  constructor
  · exact ⟨by decide,
      (c5_node_count_recurrence bRook1x1 0 true false false false).1 (by decide)⟩
  · exact ⟨by decide,
      (c5_node_count_recurrence bRook1x2 0 true false false false).2 (by decide)⟩

/-- Claim C6: applying a legal move (in-bounds and unvisited destination)
and immediately undoing it with the pair (destination, returned previous
position) restores the board exactly — bit-identical visited bitmap and
identical current position. -/
theorem c6_make_undo_roundtrip :
    ∀ (b : Board) (m : Position),
      inBounds b m.row m.col → board_get b m.row m.col = false →
      board_undo_move ((board_make_move b m).2) m ((board_make_move b m).1) = b :=
  fun b m _ hun => undo_make_of_unvisited b m hun

/-- Claim C6, witness on the 2×2 rook board with destination (0,1). -/
theorem c6_make_undo_roundtrip_witness :
    inBounds bRook2x2 (Position.mk 0 1).row (Position.mk 0 1).col
    ∧ board_get bRook2x2 (Position.mk 0 1).row (Position.mk 0 1).col = false
    ∧ board_undo_move ((board_make_move bRook2x2 ⟨0, 1⟩).2) ⟨0, 1⟩
        ((board_make_move bRook2x2 ⟨0, 1⟩).1) = bRook2x2 :=
  ⟨by decide, by decide, c6_make_undo_roundtrip bRook2x2 ⟨0, 1⟩ (by decide) (by decide)⟩

set_option maxRecDepth 40000 in
set_option maxHeartbeats 2000000 in
/-- Claim C7, counterexample: `MAX_POSITIONS = 256` is *not* large enough
for every supported board.  On a fresh 1×258 rook board there are 257 legal
moves (at least `2·(rows+cols) = 518` would be needed as a bound): the
buffer keeps exactly 256 of them and silently drops the legal move (0,257),
which the same generator produces when given a larger capacity. -/
theorem c7_counterexample :
    (board_get_available_positions bRook1x258 MAX_POSITIONS).length = 256
    ∧ Position.mk 0 257 ∉ board_get_available_positions bRook1x258 MAX_POSITIONS
    ∧ Position.mk 0 257 ∈ availAll bRook1x258
    ∧ inBounds bRook1x258 0 257
    ∧ board_get bRook1x258 0 257 = false := by
  refine ⟨?_, ?_, ?_, ?_, ?_⟩ <;> decide

/-- Claim C7, amended: the candidate buffer holds the first `max_positions`
generated moves and silently drops the rest; in particular no legal move is
dropped exactly when the full legal-move list fits into the capacity bound
(`MAX_POSITIONS = 256` at the call sites), which fails for boards with more
than 256 legal moves. -/
theorem c7_capacity_amended :
    ∀ (b : Board) (maxp : Int),
      board_get_available_positions b maxp = (availAll b).take maxp.toNat
      ∧ ((availAll b).length ≤ maxp.toNat →
          board_get_available_positions b maxp = availAll b) :=
  fun b maxp => ⟨avail_eq_take b maxp, avail_eq_availAll b maxp⟩

/-- Claim C7, witness for the amended claim on the 2×2 rook board. -/
theorem c7_capacity_amended_witness :
    board_get_available_positions bRook2x2 MAX_POSITIONS =
        (availAll bRook2x2).take MAX_POSITIONS.toNat
    ∧ (availAll bRook2x2).length ≤ MAX_POSITIONS.toNat
    ∧ board_get_available_positions bRook2x2 MAX_POSITIONS = availAll bRook2x2 :=
  ⟨(c7_capacity_amended bRook2x2 MAX_POSITIONS).1, by decide,
    (c7_capacity_amended bRook2x2 MAX_POSITIONS).2 (by decide)⟩

/-- Claim C8, counterexample: on the fresh 3×3 board with the king at the
center, the symmetry filter does *not* collapse the root candidate list to
a single representative: the canonicalization only uses the horizontal and
vertical mirrors (not the diagonal symmetries of the square), leaving three
equivalence classes. -/
theorem c8_counterexample :
    ¬((filter_symmetric_moves bKing3x3
        (board_get_available_positions bKing3x3 MAX_POSITIONS)).length = 1) := by
  decide

/-- Claim C8, amended: on a 3×3 board with a king starting at the center
(1,1) there are exactly 8 legal first moves; with symmetry reduction the
root candidate list collapses to **three** representative moves
[(2,1), (1,2), (2,2)] (the filter canonicalizes only under the horizontal
and vertical mirrors, not the diagonal symmetries); the winner is unchanged
and `statesVisited` without symmetry reduction (129) is strictly greater
than with it (39). -/
theorem c8_king_center_amended :
    (board_get_available_positions bKing3x3 MAX_POSITIONS).length = 8
    ∧ filter_symmetric_moves bKing3x3
        (board_get_available_positions bKing3x3 MAX_POSITIONS) = [⟨2, 1⟩, ⟨1, 2⟩, ⟨2, 2⟩]
    ∧ (minimax bKing3x3 0 true false false true).node_count <
        (minimax bKing3x3 0 true false false false).node_count
    ∧ (minimax bKing3x3 0 true false false true).winner =
        (minimax bKing3x3 0 true false false false).winner := by
  refine ⟨?_, ?_, ?_, ?_⟩ <;> decide

/-- Claim C9: termination and depth bound.  Every generated move strictly
decreases the number of in-bounds unvisited cells, and for every valid
initial board (positive dimensions, in-bounds start cell) the fuel-indexed
search stabilizes at fuel `rows·cols`: any fuel at least the board area
yields the search result, i.e. the recursion terminates with depth bounded
by `rows·cols`. -/
theorem c9_termination_depth_bound :
    (∀ (b : Board) (maxp : Int) (m : Position),
      m ∈ board_get_available_positions b maxp →
      unvisitedCount ((board_make_move b m).2) < unvisitedCount b)
    ∧ (∀ (rows cols : Int) (start : Position) (pt : PieceType) (depth : Int)
        (player v h s : Bool) (f : Nat),
      0 < rows → 0 < cols →
      0 ≤ start.row → start.row < rows → 0 ≤ start.col → start.col < cols →
      (rows * cols).toNat ≤ f →
      minimaxFuel f (mkBoard rows cols start pt) depth player v h s =
        minimax (mkBoard rows cols start pt) depth player v h s) := by
  constructor
  · intro b maxp m hm
    obtain ⟨hin, hun⟩ := mem_avail b maxp m hm
    have hdec := unvisitedCount_make b m hin hun
    omega
  · intro rows cols start pt depth player v h s f hr hc h1 h2 h3 h4 hf
    have hlt := unvisitedCount_mkBoard_lt rows cols start pt hr hc h1 h2 h3 h4
    exact minimaxFuel_eq_minimax _ _ _ _ _ _ _ (by omega)

/-- Claim C9, witness: the strict decrease at a concrete generated move, and
fuel `rows·cols = 4` sufficing on the 2×2 rook board. -/
theorem c9_termination_depth_bound_witness :
    (Position.mk 0 1 ∈ board_get_available_positions bRook2x2 MAX_POSITIONS
      ∧ unvisitedCount ((board_make_move bRook2x2 ⟨0, 1⟩).2) < unvisitedCount bRook2x2)
    ∧ ((0 : Int) < 2 ∧ ((2 * 2 : Int)).toNat ≤ 4
      ∧ minimaxFuel 4 bRook2x2 0 true false false false =
          minimax bRook2x2 0 true false false false) := by
  constructor
  · exact ⟨by decide,
      (c9_termination_depth_bound).1 bRook2x2 MAX_POSITIONS ⟨0, 1⟩ (by decide)⟩
  · exact ⟨by decide, by decide,
      (c9_termination_depth_bound).2 2 2 ⟨0, 0⟩ PieceType.rook 0 true false false false 4
        (by decide) (by decide) (by decide) (by decide) (by decide) (by decide) (by decide)⟩

/-- Claim C10: the verbose-trace flag only controls trace output (it guards
nothing but `printf` in the C code); for every board, depth, player flag and
setting of the heuristic and symmetry options, the search result — winner
and `statesVisited` alike — is identical with the flag true and false. -/
theorem c10_verbose_noninterference :
    ∀ (b : Board) (depth : Int) (player h s : Bool),
      minimax b depth player true h s = minimax b depth player false h s := by
  intro b depth player h s
  exact minimaxFuel_verbose_invariant _ b depth player true false h s
